import Mathlib

/-!
A shallow embedding of `src/w2v_cbow_dataloader.hpp` (class `CBOWLoader`),
together with proofs about its specified behaviour.

Modelling conventions:

* `std::map<std::string, std::pair<uint64_t, uint64_t>>` is modelled as an
  association list kept sorted by key (`Vocab`); `std::map::insert` becomes
  `mapInsert`, which inserts at the sorted position and leaves the map
  unchanged when the key is already present, exactly like `insert` on a
  `std::map`.  Iteration over the map (in `WordFromIndex` and
  `RemoveInfrequent`) is iteration over the sorted list, matching the key
  order of `std::map` iteration.
* All `uint64_t` quantities are modelled as `ℕ`.  Every subtraction performed
  by the source (`s.size() - (2 * window_size_)` and friends) is guarded in
  the source either by an explicit comparison or by the corpus invariant that
  every stored sentence has at least `2 * window_size + 1` words (enforced by
  the guard in `AddData` / `StringsToIndexes`), so truncated `ℕ` subtraction
  agrees with `uint64_t` subtraction wherever the theorems below apply;
  theorems about states that are not necessarily built by ingestion carry
  this invariant (`Loader.WF`) as a hypothesis.
* Out-of-bounds `std::vector::operator[]` access is undefined behaviour in
  C++; the embedding makes the operations that may perform such an access
  (`GetNext`, `SetOffset`) return `Option`, with `none` marking an
  out-of-bounds access (and, for `SetOffset`, the `offset % Size()` division
  by zero when the corpus is empty).
* `std::isalpha` / `std::tolower` in the default locale agree with
  `Char.isAlpha` / `Char.toLower` on ASCII input, which is the intended
  domain of the loader; `operator>>` extraction from a `stringstream` splits
  on whitespace runs, and after preprocessing the only whitespace character
  left is `' '`, so `splitWords` splits on runs of `' '`.
-/

namespace W2V

/-- One normalised character of `PreprocessString`: alphabetic characters are
lowercased, everything else becomes a space. -/
def normChar (c : Char) : Char :=
  if c.isAlpha then c.toLower else ' '

/-- Grouping a character sequence into the (possibly empty) runs delimited
by spaces, in order. -/
def splitGroups : List Char → List (List Char)
  | [] => [[]]
  | c :: cs =>
    if c = ' ' then [] :: splitGroups cs
    else
      match splitGroups cs with
      | [] => [[c]]
      | g :: rest => (c :: g) :: rest

/-- Splitting a normalised character sequence on runs of spaces, dropping
empty tokens — the behaviour of `ss >> word` extraction in
`PreprocessString` (the maximal non-space runs, as strings). -/
def splitWords (cs : List Char) : List String :=
  ((splitGroups cs).filter (fun g => g ≠ [])).map String.mk

/-- `CBOWLoader::PreprocessString`: lowercase the alphabetic characters,
replace every other character by a space, then split into words. -/
def preprocessString (s : String) : List String :=
  splitWords (s.data.map normChar)

/-- The vocabulary `vocab_`, a `std::map` from word to (index, frequency),
modelled as an association list sorted by key. -/
abbrev Vocab := List (String × ℕ × ℕ)

/-- Lexicographic comparison of character sequences by code point —
`std::string`'s `operator<` compares byte sequences, and UTF-8 byte order
coincides with code-point order. -/
def charListLt : List Char → List Char → Bool
  | _, [] => false
  | [], _ :: _ => true
  | c :: cs, d :: ds =>
    c.toNat < d.toNat || (c.toNat = d.toNat && charListLt cs ds)

/-- The strict key order of the `std::map<std::string, ...>`. -/
def strLt (s t : String) : Bool :=
  charListLt s.data t.data

/-- Lookup in the vocabulary map. -/
def vocabFind : Vocab → String → Option (ℕ × ℕ)
  | [], _ => none
  | (w, p) :: rest, s => if s = w then some p else vocabFind rest s

/-- `std::map::insert`: insert at the sorted position; no effect when the key
is already present. -/
def mapInsert (s : String) (p : ℕ × ℕ) : Vocab → Vocab
  | [] => [(s, p)]
  | (w, q) :: rest =>
    if strLt s w then (s, p) :: (w, q) :: rest
    else if s = w then (w, q) :: rest
    else (w, q) :: mapInsert s p rest

/-- The `value.first->second.second++` frequency bump on the entry of key
`s`. -/
def mapBump (s : String) : Vocab → Vocab
  | [] => []
  | (w, q) :: rest =>
    if s = w then (w, q.1, q.2 + 1) :: rest else (w, q) :: mapBump s rest

/-- One iteration of the loop body of `CBOWLoader::StringsToIndexes`:
`insert({s, {vocab_.size(), 0}})`, read the (new or pre-existing) index of
`s`, then increment the frequency of `s`. -/
def stiStep (v : Vocab) (s : String) : Vocab × ℕ :=
  let v1 := mapInsert s (v.length, 0) v
  (mapBump s v1, ((vocabFind v1 s).getD (0, 0)).1)

/-- The whole loop of `CBOWLoader::StringsToIndexes`, returning the updated
vocabulary and the index sequence. -/
def stiGo : Vocab → List String → Vocab × List ℕ
  | v, [] => (v, [])
  | v, s :: rest =>
    let r1 := stiStep v s
    let r2 := stiGo r1.1 rest
    (r2.1, r1.2 :: r2.2)

/-- The state of a `CBOWLoader<T>`: cursor (`currentSentence_`,
`currentWord_`), the fixed `window_size_`, the vocabulary `vocab_` and the
corpus `data_`.  The element type `T` of the output tensor plays no role in
the control flow (every stored value is a vocabulary index), so windows are
modelled as lists of vocabulary indices. -/
structure Loader where
  currentSentence : ℕ
  currentWord : ℕ
  windowSize : ℕ
  vocab : Vocab
  data : List (List ℕ)
deriving DecidableEq

/-- The constructor `CBOWLoader(window_size)`. -/
def initLoader (w : ℕ) : Loader :=
  ⟨0, 0, w, [], []⟩

/-- `CBOWLoader::StringsToIndexes`: when the token sequence is long enough,
run every token through the vocabulary; otherwise leave the state unchanged
and return no indices. -/
def Loader.StringsToIndexes (l : Loader) (strings : List String) :
    Loader × List ℕ :=
  if 2 * l.windowSize + 1 ≤ strings.length then
    let r := stiGo l.vocab strings
    ({ l with vocab := r.1 }, r.2)
  else (l, [])

/-- `CBOWLoader::AddData`: preprocess, convert to indices, and append the
sentence to `data_` when it has at least `2 * window_size_ + 1` tokens.
Returns the new state and the success flag. -/
def Loader.AddData (l : Loader) (s : String) : Loader × Bool :=
  let r := l.StringsToIndexes (preprocessString s)
  if 2 * l.windowSize + 1 ≤ r.2.length then
    ({ r.1 with data := r.1.data ++ [r.2] }, true)
  else (r.1, false)

/-- `CBOWLoader::Size`: total window count, summing
`s.size() - 2 * window_size_` over the sentences with more than
`2 * window_size_` words. -/
def Loader.Size (l : Loader) : ℕ :=
  l.data.foldl
    (fun size s =>
      if 2 * l.windowSize < s.length then size + (s.length - 2 * l.windowSize)
      else size)
    0

/-- `CBOWLoader::IsDone`.  The subtraction
`data_.at(currentSentence_).size() - (2 * window_size_ + 1)` is `uint64_t`
subtraction; it cannot wrap for a corpus built by ingestion (every stored
sentence has at least `2 * window_size_ + 1` words), which is the situation
of every theorem below that mentions `IsDone`. -/
def Loader.IsDone (l : Loader) : Bool :=
  if l.data.isEmpty then true
  else if l.data.length ≤ l.currentSentence then true
  else if l.data.length - 1 ≤ l.currentSentence then
    decide
      ((l.data.getD l.currentSentence []).length - (2 * l.windowSize + 1) <
        l.currentWord)
  else false

/-- `CBOWLoader::GetNext`.  Returns the (context, label) pair and the
advanced state; `none` when one of the `data_[...][...]` accesses is out of
bounds (undefined behaviour in the C++).  All element reads lie in positions
`currentWord_ .. currentWord_ + 2 * window_size_` of the current sentence, so
the single guard below is exactly the in-bounds condition of the reads. -/
def Loader.GetNext (l : Loader) : Option ((List ℕ × ℕ) × Loader) :=
  match l.data[l.currentSentence]? with
  | none => none
  | some sent =>
    if l.currentWord + 2 * l.windowSize < sent.length then
      let label := sent.getD (l.currentWord + l.windowSize) 0
      let context :=
        ((List.range l.windowSize).map fun i => sent.getD (l.currentWord + i) 0)
          ++ ((List.range l.windowSize).map fun i =>
                sent.getD (l.currentWord + l.windowSize + i + 1) 0)
      let cw := l.currentWord + 1
      if sent.length - 2 * l.windowSize ≤ cw then
        some ((context, label),
          { l with currentWord := 0, currentSentence := l.currentSentence + 1 })
      else
        some ((context, label), { l with currentWord := cw })
    else none

/-- The `while (offset > data_[currentSentence_].size())` loop of
`CBOWLoader::SetOffset`.  Each iteration reads `data_[currentSentence_]`,
i.e. the head of the suffix `data_.drop currentSentence_`, so the loop is
modelled as structural recursion on that suffix, carrying the index
`currentSentence_` alongside; an empty suffix means `data_[currentSentence_]`
is accessed out of bounds (undefined behaviour in the C++), hence `none`. -/
def setOffsetWalk : List (List ℕ) → ℕ → ℕ → Option (ℕ × ℕ)
  | [], _, _ => none
  | sent :: rest, offset, cs =>
    if sent.length < offset then setOffsetWalk rest (offset - sent.length) (cs + 1)
    else some (offset, cs)

/-- `CBOWLoader::SetOffset`: reduce the offset modulo `Size()` (undefined —
`none` — for an empty window set, where `% 0` is C++ UB), walk whole
sentences while the remaining offset exceeds the sentence word count, then
either land inside the current sentence or skip to the start of the next
one. -/
def Loader.SetOffset (l : Loader) (offset : ℕ) : Option Loader :=
  if l.Size = 0 then none
  else
    match setOffsetWalk (l.data.drop l.currentSentence) (offset % l.Size)
        l.currentSentence with
    | none => none
    | some (o, cs) =>
      match l.data[cs]? with
      | none => none
      | some sent =>
        if o < sent.length - l.windowSize then
          some { l with currentSentence := cs, currentWord := o }
        else
          some { l with currentSentence := cs + 1, currentWord := 0 }

/-- `CBOWLoader::VocabSize`. -/
def Loader.VocabSize (l : Loader) : ℕ :=
  l.vocab.length

/-- The linear scan of `CBOWLoader::WordFromIndex` over the vocabulary map in
key order. -/
def wordFromIndexGo : Vocab → ℕ → String
  | [], _ => ""
  | (w, p) :: rest, index => if p.1 = index then w else wordFromIndexGo rest index

/-- `CBOWLoader::WordFromIndex`: first word whose stored index matches, the
empty string when none does. -/
def Loader.WordFromIndex (l : Loader) (index : ℕ) : String :=
  wordFromIndexGo l.vocab index

/-- The reverse map `reverse_vocab` of `CBOWLoader::RemoveInfrequent`, a
`std::map<uint64_t, std::pair<std::string, uint64_t>>` modelled as an
association list sorted by index key. -/
abbrev RevVocab := List (ℕ × String × ℕ)

/-- `reverse_vocab[i] = p`: sorted insert-or-assign (`operator[]` followed by
assignment overwrites an existing entry). -/
def insertRev (i : ℕ) (p : String × ℕ) : RevVocab → RevVocab
  | [] => [(i, p)]
  | (j, q) :: rest =>
    if i < j then (i, p) :: (j, q) :: rest
    else if i = j then (j, p) :: rest
    else (j, q) :: insertRev i p rest

/-- Building `reverse_vocab` by iterating over `vocab_`. -/
def buildReverse (v : Vocab) : RevVocab :=
  v.foldl (fun m e => insertRev e.2.1 (e.1, e.2.2) m) []

/-- Read access `reverse_vocab[word]`; a missing key default-constructs the
mapped value, i.e. yields `("", 0)`. -/
def revLookup : RevVocab → ℕ → String × ℕ
  | [], _ => ("", 0)
  | (j, p) :: rest, i => if i = j then p else revLookup rest i

/-- The inner loop of `CBOWLoader::RemoveInfrequent` rebuilding one sentence
as a string: keep the words whose stored frequency reaches the threshold,
each followed by a space. -/
def rebuildSentenceString (rv : RevVocab) (min : ℕ) (sentence : List ℕ) :
    String :=
  sentence.foldl
    (fun s word =>
      if min ≤ (revLookup rv word).2 then s ++ (revLookup rv word).1 ++ " "
      else s)
    ""

/-- `CBOWLoader::RemoveInfrequent`: feed every rebuilt sentence string into a
fresh loader via `AddData`, then move that loader's `data_` and `vocab_` into
this one (the cursor fields are not touched). -/
def Loader.RemoveInfrequent (l : Loader) (min : ℕ) : Loader :=
  let rv := buildReverse l.vocab
  let newLoader :=
    l.data.foldl
      (fun nl sentence => (nl.AddData (rebuildSentenceString rv min sentence)).1)
      (initLoader l.windowSize)
  { l with data := newLoader.data, vocab := newLoader.vocab }

/-- A sequence of `AddData` calls on a freshly constructed loader. -/
def loadAll (w : ℕ) (ss : List String) : Loader :=
  ss.foldl (fun l s => (l.AddData s).1) (initLoader w)

/-- Iterated `GetNext`: perform `n` calls, each under the precondition that
`IsDone` is `false`, collecting the produced (context, label) pairs. -/
def runGetNext (l : Loader) : ℕ → Option (List (List ℕ × ℕ) × Loader)
  | 0 => some ([], l)
  | n + 1 =>
    if l.IsDone then none
    else
      match l.GetNext with
      | none => none
      | some (p, l1) =>
        match runGetNext l1 n with
        | none => none
        | some (ps, l2) => some (p :: ps, l2)

/-- The corpus invariant established by ingestion: every stored sentence has
at least `2 * window_size + 1` words. -/
def Loader.WF (l : Loader) : Prop :=
  ∀ s ∈ l.data, 2 * l.windowSize + 1 ≤ s.length

instance (l : Loader) : Decidable l.WF :=
  List.decidableBAll _ l.data

/-- The window with center position `k + w` of a sentence: the `w` indices
immediately before the center, then the `w` indices immediately after it;
the label is the center index. -/
def windowAt (w : ℕ) (sent : List ℕ) (k : ℕ) : List ℕ × ℕ :=
  ((sent.drop k).take w ++ (sent.drop (k + w + 1)).take w,
    sent.getD (k + w) 0)

/-- All windows of one sentence, left to right. -/
def sentWindows (w : ℕ) (sent : List ℕ) : List (List ℕ × ℕ) :=
  (List.range (sent.length - 2 * w)).map (windowAt w sent)

/-- All windows of a corpus, in sentence order. -/
def allWindows (w : ℕ) (data : List (List ℕ)) : List (List ℕ × ℕ) :=
  (data.map (sentWindows w)).flatten

/-- The subsequence of first occurrences of a token list. -/
def firstOccs : List String → List String
  | [] => []
  | t :: ts => t :: (firstOccs ts).filter (fun u => u ≠ t)

/-- All tokens of the successfully ingested sentences of a run of `AddData`
calls, in order. -/
def acceptedTokens (w : ℕ) (ss : List String) : List String :=
  ((ss.map preprocessString).filter (fun ts => 2 * w + 1 ≤ ts.length)).flatten

/-- The cursor advance performed at the end of `GetNext`, for a current
sentence of `sentLen` words. -/
def stepCursor (l : Loader) (sentLen : ℕ) : Loader :=
  if sentLen - 2 * l.windowSize ≤ l.currentWord + 1 then
    { l with currentWord := 0, currentSentence := l.currentSentence + 1 }
  else { l with currentWord := l.currentWord + 1 }

/-- Strict sortedness of the vocabulary association list by key — the
structural invariant of a `std::map`. -/
def VocabSorted (v : Vocab) : Prop :=
  v.Pairwise (fun a b => strLt a.1 b.1 = true)

/-- A word as the tokenizer produces it: nonempty, every character fixed by
normalisation and distinct from the separator. -/
def cleanWord (w : String) : Prop :=
  w ≠ "" ∧ ∀ c ∈ w.data, normChar c = c ∧ c ≠ ' '

instance (w : String) : Decidable (cleanWord w) :=
  inferInstanceAs
    (Decidable (w ≠ "" ∧ ∀ c ∈ w.data, normChar c = c ∧ c ≠ ' '))

/-- The words of a sentence that a pruning pass at threshold `min` keeps, in
order. -/
def keptWords (rv : RevVocab) (min : ℕ) (sentence : List ℕ) : List String :=
  sentence.filterMap (fun word =>
    if min ≤ (revLookup rv word).2 then some (revLookup rv word).1 else none)

/-- The vocabulary state reached after ingesting the token sequence `T`:
sorted by key, one entry per distinct token, each entry holding the token's
first-occurrence index and its occurrence count in `T`. -/
def VocabModels (v : Vocab) (T : List String) : Prop :=
  VocabSorted v ∧ v.length = (firstOccs T).length ∧
  ∀ t, vocabFind v t =
    if t ∈ T then some ((firstOccs T).indexOf t, T.count t) else none

/- ------------------------------------------------------------------ -/
/- Theorems                                                            -/
/- ------------------------------------------------------------------ -/

lemma sizeFold_eq (w : ℕ) (data : List (List ℕ)) : ∀ acc : ℕ,
    data.foldl
      (fun size s =>
        if 2 * w < s.length then size + (s.length - 2 * w) else size) acc =
      acc + (data.map (fun s => s.length - 2 * w)).sum := by
  induction data with
  | nil => simp
  | cons s rest ih =>
    intro acc
    simp only [List.foldl_cons, List.map_cons, List.sum_cons, ih]
    split <;> omega

lemma Loader.Size_eq (l : Loader) :
    l.Size = (l.data.map (fun s => s.length - 2 * l.windowSize)).sum := by
  simpa using sizeFold_eq l.windowSize l.data 0

/-- C5: at every state of the loader, `Size()` equals the sum over all
stored sentences of `max(0, len(sentence) - 2*window_size)`, recomputed from
the current corpus content. -/
theorem spec_C5 (l : Loader) :
    (l.Size : ℤ) =
      (l.data.map (fun s => max 0 ((s.length : ℤ) - 2 * l.windowSize))).sum := by
  rw [Loader.Size_eq]
  induction l.data with
  | nil => simp
  | cons s rest ih =>
    simp only [List.map_cons, List.sum_cons, Nat.cast_add, ih]
    have h : ((s.length - 2 * l.windowSize : ℕ) : ℤ) =
        max 0 ((s.length : ℤ) - 2 * l.windowSize) := by omega
    omega

/-- C10: `RemoveInfrequent` leaves the cursor fields (and the window size)
exactly as they were, for every loader state and every threshold: only the
corpus and the vocabulary are replaced. -/
theorem spec_C10 (l : Loader) (min : ℕ) :
    (l.RemoveInfrequent min).currentSentence = l.currentSentence ∧
    (l.RemoveInfrequent min).currentWord = l.currentWord ∧
    (l.RemoveInfrequent min).windowSize = l.windowSize :=
  ⟨rfl, rfl, rfl⟩

lemma stiGo_length (ts : List String) : ∀ v : Vocab,
    (stiGo v ts).2.length = ts.length := by
  induction ts with
  | nil => intro v; rfl
  | cons t ts ih => intro v; simp [stiGo, ih]

/-- C4: `AddData(s)` returns `false` iff tokenizing `s` yields fewer than
`2*window_size + 1` tokens, and in that case the loader state is unchanged:
no sentence is added to the corpus and the vocabulary is not mutated by the
call. -/
theorem spec_C4 (l : Loader) (s : String) :
    ((l.AddData s).2 = false ↔
      (preprocessString s).length < 2 * l.windowSize + 1) ∧
    ((l.AddData s).2 = false → (l.AddData s).1 = l) := by
  unfold Loader.AddData Loader.StringsToIndexes
  by_cases h : 2 * l.windowSize + 1 ≤ (preprocessString s).length
  · simp [h, stiGo_length]
  · simp [h]
    omega

lemma rangeMap_getD_eq (sent : List ℕ) (a w : ℕ) (h : a + w ≤ sent.length) :
    (List.range w).map (fun i => sent.getD (a + i) 0) = (sent.drop a).take w := by
  induction w with
  | zero => simp
  | succ w ih =>
    rw [List.range_succ, List.map_append, ih (by omega)]
    simp only [List.map_cons, List.map_nil]
    rw [List.take_succ]
    congr 1
    rw [List.getElem?_drop]
    have hw : a + w < sent.length := by omega
    simp [List.getD_eq_getElem?_getD, List.getElem?_eq_getElem hw]

lemma getNext_eq (l : Loader) (sent : List ℕ)
    (hs : l.data[l.currentSentence]? = some sent)
    (hw : l.currentWord + 2 * l.windowSize < sent.length) :
    l.GetNext = some (windowAt l.windowSize sent l.currentWord,
      stepCursor l sent.length) := by
  unfold Loader.GetNext
  rw [hs]
  simp only [hw, if_pos]
  unfold stepCursor windowAt
  have h1 : (List.range l.windowSize).map
      (fun i => sent.getD (l.currentWord + i) 0) =
      (sent.drop l.currentWord).take l.windowSize :=
    rangeMap_getD_eq sent _ _ (by omega)
  have h2 : (List.range l.windowSize).map
      (fun i => sent.getD (l.currentWord + l.windowSize + i + 1) 0) =
      (sent.drop (l.currentWord + l.windowSize + 1)).take l.windowSize := by
    have := rangeMap_getD_eq sent (l.currentWord + l.windowSize + 1)
      l.windowSize (by omega)
    rw [← this]
    apply List.map_congr_left
    intro i _
    congr 1
    omega
  split <;> simp_all

lemma isDone_false (l : Loader) (sent : List ℕ)
    (hs : l.data[l.currentSentence]? = some sent)
    (hw : l.currentWord + 2 * l.windowSize + 1 ≤ sent.length) :
    l.IsDone = false := by
  have hcs : l.currentSentence < l.data.length := by
    by_contra hge
    rw [List.getElem?_eq_none (Nat.le_of_not_lt hge)] at hs
    exact Option.noConfusion hs
  have hgetD : l.data.getD l.currentSentence [] = sent := by
    rw [List.getD_eq_getElem?_getD, hs]
    rfl
  have h0 : l.data.isEmpty = false := by
    cases hd : l.data with
    | nil => rw [hd] at hcs; simp at hcs
    | cons a t => rfl
  simp only [Loader.IsDone, h0, Bool.false_eq_true, if_false, hgetD]
  rw [if_neg (by omega)]
  split
  · simp only [decide_eq_false_iff_not]
    omega
  · rfl

lemma runGetNext_succ (l : Loader) (n : ℕ) :
    runGetNext l (n + 1) =
      if l.IsDone then none
      else
        match l.GetNext with
        | none => none
        | some (p, l1) =>
          match runGetNext l1 n with
          | none => none
          | some (ps, l2) => some (p :: ps, l2) :=
  rfl

lemma runGetNext_add (a : ℕ) : ∀ (b : ℕ) (l : Loader),
    runGetNext l (a + b) =
      match runGetNext l a with
      | none => none
      | some (ps, l1) =>
        match runGetNext l1 b with
        | none => none
        | some (qs, l2) => some (ps ++ qs, l2) := by
  induction a with
  | zero =>
    intro b l
    simp only [Nat.zero_add, runGetNext]
    cases h : runGetNext l b with
    | none => rfl
    | some r => rfl
  | succ a ih =>
    intro b l
    have hT : a + 1 + b = (a + b) + 1 := by omega
    rw [hT, runGetNext_succ, runGetNext_succ]
    by_cases hd : l.IsDone
    · simp [hd]
    · simp only [hd, Bool.false_eq_true, if_false]
      cases hg : l.GetNext with
      | none => rfl
      | some pl =>
        obtain ⟨p, l1⟩ := pl
        dsimp only
        rw [ih b l1]
        cases h1 : runGetNext l1 a with
        | none => rfl
        | some ql =>
          obtain ⟨ps, l2⟩ := ql
          dsimp only
          cases h2 : runGetNext l2 b with
          | none => rfl
          | some rl =>
            obtain ⟨qs, l3⟩ := rl
            dsimp only
            rw [List.cons_append]

lemma run_consume (m : ℕ) : ∀ (l : Loader) (sent : List ℕ),
    l.data[l.currentSentence]? = some sent →
    2 * l.windowSize + 1 ≤ sent.length →
    l.currentWord + (m + 1) = sent.length - 2 * l.windowSize →
    runGetNext l (m + 1) =
      some ((List.range' l.currentWord (m + 1)).map (windowAt l.windowSize sent),
        { l with currentWord := 0, currentSentence := l.currentSentence + 1 }) := by
  induction m with
  | zero =>
    intro l sent hs hlen hcw
    have hw : l.currentWord + 2 * l.windowSize < sent.length := by omega
    have hd := isDone_false l sent hs (by omega)
    rw [runGetNext_succ, hd]
    simp only [Bool.false_eq_true, if_false]
    have hstep : stepCursor l sent.length =
        { l with currentWord := 0, currentSentence := l.currentSentence + 1 } := by
      unfold stepCursor
      rw [if_pos (by omega)]
    rw [getNext_eq l sent hs hw, hstep]
    rfl
  | succ m ih =>
    intro l sent hs hlen hcw
    have hw : l.currentWord + 2 * l.windowSize < sent.length := by omega
    have hd := isDone_false l sent hs (by omega)
    have hstep : stepCursor l sent.length =
        { l with currentWord := l.currentWord + 1 } := by
      unfold stepCursor
      rw [if_neg (by omega)]
    rw [runGetNext_succ, hd]
    simp only [Bool.false_eq_true, if_false]
    rw [getNext_eq l sent hs hw, hstep]
    dsimp only
    rw [ih { l with currentWord := l.currentWord + 1 } sent (by simpa using hs)
      hlen
      (show l.currentWord + 1 + (m + 1) = sent.length - 2 * l.windowSize by
        omega)]
    rfl

lemma run_corpus (d : ℕ) : ∀ (l : Loader),
    l.currentWord = 0 →
    l.data.length = l.currentSentence + d →
    l.WF →
    runGetNext l
        (((l.data.drop l.currentSentence).map
            (fun s => s.length - 2 * l.windowSize)).sum) =
      some (((l.data.drop l.currentSentence).map
              (sentWindows l.windowSize)).flatten,
        { l with currentSentence := l.data.length, currentWord := 0 }) := by
  induction d with
  | zero =>
    intro l hcw hlen hwf
    have hd : l.data.drop l.currentSentence = [] :=
      List.drop_eq_nil_of_le (by omega)
    rw [hd]
    simp only [List.map_nil, List.sum_nil, List.flatten_nil, runGetNext]
    cases l
    simp_all
  | succ d ih =>
    intro l hcw hlen hwf
    have hcs : l.currentSentence < l.data.length := by omega
    have hs : l.data[l.currentSentence]? = some l.data[l.currentSentence] :=
      List.getElem?_eq_getElem hcs
    have hsent : l.data[l.currentSentence] ∈ l.data := List.getElem_mem hcs
    have hlen2 : 2 * l.windowSize + 1 ≤ l.data[l.currentSentence].length :=
      hwf _ hsent
    have hdrop : l.data.drop l.currentSentence =
        l.data[l.currentSentence] :: l.data.drop (l.currentSentence + 1) :=
      List.drop_eq_getElem_cons hcs
    rw [hdrop]
    simp only [List.map_cons, List.sum_cons, List.flatten_cons]
    rw [runGetNext_add]
    have hm : l.data[l.currentSentence].length - 2 * l.windowSize =
        (l.data[l.currentSentence].length - 2 * l.windowSize - 1) + 1 := by
      omega
    rw [hm, run_consume _ l _ hs hlen2 (by omega)]
    dsimp only
    have hih := ih ⟨l.currentSentence + 1, 0, l.windowSize, l.vocab, l.data⟩
      rfl (by dsimp only; omega) (fun s hmem => hwf s hmem)
    dsimp only at hih
    rw [hih]
    dsimp only
    have hwin : sentWindows l.windowSize l.data[l.currentSentence] =
        (List.range' 0
            (l.data[l.currentSentence].length - 2 * l.windowSize - 1 + 1)).map
          (windowAt l.windowSize l.data[l.currentSentence]) := by
      rw [sentWindows, List.range_eq_range', ← hm]
    rw [hwin, hcw]

lemma addData_fields (l : Loader) (s : String) :
    (l.AddData s).1.currentSentence = l.currentSentence ∧
    (l.AddData s).1.currentWord = l.currentWord ∧
    (l.AddData s).1.windowSize = l.windowSize := by
  unfold Loader.AddData Loader.StringsToIndexes
  by_cases h : 2 * l.windowSize + 1 ≤ (preprocessString s).length
  · simp [h, stiGo_length]
  · simp [h]

lemma addData_wf (l : Loader) (s : String) (hwf : l.WF) : (l.AddData s).1.WF := by
  unfold Loader.AddData Loader.StringsToIndexes
  by_cases h : 2 * l.windowSize + 1 ≤ (preprocessString s).length
  · simp only [h, if_pos, stiGo_length]
    intro t ht
    simp only [Loader.WF] at hwf ⊢
    rcases List.mem_append.mp ht with hmem | hmem
    · exact hwf t hmem
    · rw [List.mem_singleton.mp hmem]
      rw [stiGo_length]
      exact h
  · simp only [stiGo_length, h]
    simpa using hwf

lemma foldl_addData_fields (ss : List String) : ∀ l : Loader,
    ((ss.foldl (fun l s => (l.AddData s).1) l).currentSentence =
        l.currentSentence ∧
      (ss.foldl (fun l s => (l.AddData s).1) l).currentWord = l.currentWord ∧
      (ss.foldl (fun l s => (l.AddData s).1) l).windowSize = l.windowSize) := by
  induction ss with
  | nil => intro l; exact ⟨rfl, rfl, rfl⟩
  | cons s ss ih =>
    intro l
    have h1 := addData_fields l s
    have h2 := ih (l.AddData s).1
    simp only [List.foldl_cons]
    omega

lemma foldl_addData_wf (ss : List String) : ∀ l : Loader, l.WF →
    (ss.foldl (fun l s => (l.AddData s).1) l).WF := by
  induction ss with
  | nil => intro l h; exact h
  | cons s ss ih =>
    intro l h
    exact ih (l.AddData s).1 (addData_wf l s h)

lemma loadAll_cursor (w : ℕ) (ss : List String) :
    (loadAll w ss).currentSentence = 0 ∧ (loadAll w ss).currentWord = 0 ∧
    (loadAll w ss).windowSize = w :=
  foldl_addData_fields ss (initLoader w)

lemma loadAll_wf (w : ℕ) (ss : List String) : (loadAll w ss).WF :=
  foldl_addData_wf ss (initLoader w) (fun s hs => absurd hs (List.not_mem_nil s))

/-- C2: starting from a freshly constructed loader into which sentences have
been ingested via `AddData`, the run of `Size()` consecutive `GetNext` calls
(each made while `IsDone()` is `false` — `runGetNext` checks this before
every step) succeeds and returns exactly the list of all producible windows,
scanning center positions left to right within each sentence and sentences
in ingestion order; and each stored sentence of length `L` contributes
exactly `L - 2*window_size` windows. -/
theorem spec_C2 (w : ℕ) (ss : List String) :
    runGetNext (loadAll w ss) (loadAll w ss).Size =
      some (allWindows w (loadAll w ss).data,
        { loadAll w ss with currentSentence := (loadAll w ss).data.length,
                            currentWord := 0 }) ∧
    ∀ sent ∈ (loadAll w ss).data,
      (sentWindows w sent).length = sent.length - 2 * w := by
  obtain ⟨hcs, hcw, hws⟩ := loadAll_cursor w ss
  constructor
  · have h := run_corpus (loadAll w ss).data.length (loadAll w ss) hcw
      (by omega) (loadAll_wf w ss)
    rw [hcs, List.drop_zero] at h
    rw [Loader.Size_eq, h, allWindows, hws]
    simp [hws]
  · intro sent hsent
    rw [sentWindows, List.length_map, List.length_range]

/-- C3: for every cursor state at which a window is producible (the state is
Active in the sense of §4.3 — the conclusion also records `IsDone = false` —
and the cursor denotes a full window of the current sentence), `GetNext`
returns the pair whose context is the `window_size` indices immediately
preceding position `currentWord + window_size` in the current sentence
followed by the `window_size` indices immediately following it, and whose
label is the index at position `currentWord + window_size`. -/
theorem spec_C3 (l : Loader) (sent : List ℕ)
    (hs : l.data[l.currentSentence]? = some sent)
    (hw : l.currentWord + 2 * l.windowSize < sent.length) :
    l.IsDone = false ∧
    (l.GetNext).map Prod.fst =
      some ((sent.drop l.currentWord).take l.windowSize ++
              (sent.drop (l.currentWord + l.windowSize + 1)).take l.windowSize,
            sent.getD (l.currentWord + l.windowSize) 0) := by
  refine ⟨isDone_false l sent hs (by omega), ?_⟩
  rw [getNext_eq l sent hs hw]
  rfl

/-- Witness for C3 at a concrete input: the loader holding the single
sentence `[5, 6, 7]` with window size 1 and cursor `(0, 0)`. -/
theorem spec_C3_witness :
    ((⟨0, 0, 1, [], [[5, 6, 7]]⟩ : Loader).data[(0 : ℕ)]? = some [5, 6, 7]) ∧
    ((0 : ℕ) + 2 * 1 < ([5, 6, 7] : List ℕ).length) ∧
    ((⟨0, 0, 1, [], [[5, 6, 7]]⟩ : Loader).IsDone = false ∧
      ((⟨0, 0, 1, [], [[5, 6, 7]]⟩ : Loader).GetNext).map Prod.fst =
        some (([5, 6, 7] : List ℕ).take 1 ++
                (([5, 6, 7] : List ℕ).drop 2).take 1,
              ([5, 6, 7] : List ℕ).getD 1 0)) :=
  ⟨rfl, by decide, by
    have h := spec_C3 ⟨0, 0, 1, [], [[5, 6, 7]]⟩ [5, 6, 7] rfl (by decide)
    simpa using h⟩

/-- C1 fails on the code: for the fresh loader built from the two sentences
"a b c" and "d e f" with window size 1, `Size()` is 2 and the natural scan
order yields the windows `([0,2],1)` (sentence 0) and `([3,5],4)`
(sentence 1); but `SetOffset(1)` leaves the cursor at `(0, 1)` — past the
last producible window of sentence 0 — so the following `GetNext` performs
an out-of-bounds read (`none` in the embedding) instead of returning the
window `([3,5],4)` that natural advancement to the 1st window produces.
Hence offset 1 reaches no window and the window of sentence 1 is reached by
no offset in `[0, Size())`. -/
theorem spec_C1 :
    (loadAll 1 ["a b c", "d e f"]).Size = 2 ∧
    allWindows 1 (loadAll 1 ["a b c", "d e f"]).data =
      [([0, 2], 1), ([3, 5], 4)] ∧
    ((loadAll 1 ["a b c", "d e f"]).SetOffset 1).map
        (fun l => (l.currentSentence, l.currentWord)) = some (0, 1) ∧
    ((loadAll 1 ["a b c", "d e f"]).SetOffset 1).bind Loader.GetNext =
      none := by
  refine ⟨by decide, by decide, by decide, by decide⟩

/-- C6 fails on the code as stated: the loader state with corpus
`[[0,…,9], [10,11,12]]`, window size 1 and cursor `(1, 0)` — a state
reachable from a fresh loader by eight `GetNext` calls — satisfies the
corpus invariant and has `Size() = 9 > 0`, yet `SetOffset(5)` walks past the
end of the corpus and accesses `data_[2]` out of bounds (`none` in the
embedding). -/
theorem spec_C6_counterexample :
    (Loader.WF ⟨1, 0, 1, [], [[0, 1, 2, 3, 4, 5, 6, 7, 8, 9], [10, 11, 12]]⟩) ∧
    Loader.Size ⟨1, 0, 1, [], [[0, 1, 2, 3, 4, 5, 6, 7, 8, 9], [10, 11, 12]]⟩ =
      9 ∧
    Loader.SetOffset ⟨1, 0, 1, [], [[0, 1, 2, 3, 4, 5, 6, 7, 8, 9], [10, 11, 12]]⟩
      5 = none := by
  refine ⟨by decide, by decide, by decide⟩

lemma setOffsetWalk_some (data : List (List ℕ)) (w : ℕ) :
    ∀ (tail : List (List ℕ)) (j o : ℕ), tail = data.drop j →
    o < (tail.map (fun s => s.length - 2 * w)).sum →
    ∃ o2 cs2 sent, setOffsetWalk tail o j = some (o2, cs2) ∧
      data[cs2]? = some sent ∧ o2 ≤ sent.length := by
  intro tail
  induction tail with
  | nil =>
    intro j o htail ho
    simp at ho
  | cons sent rest ih =>
    intro j o htail ho
    have hj : data[j]? = some sent := by
      have h0 : (data.drop j)[0]? = data[j + 0]? := List.getElem?_drop data j 0
      rw [← htail] at h0
      simpa using h0.symm
    have hrest : rest = data.drop (j + 1) := by
      have := congrArg List.tail htail
      simpa [List.tail_drop] using this
    simp only [List.map_cons, List.sum_cons] at ho
    rw [setOffsetWalk]
    by_cases hlt : sent.length < o
    · rw [if_pos hlt]
      exact ih (j + 1) (o - sent.length) hrest (by omega)
    · rw [if_neg hlt]
      exact ⟨o, j, sent, rfl, hj, by omega⟩

lemma setOffset_some (l : Loader) (k : ℕ) (hsz : 0 < l.Size)
    (hcs : l.currentSentence = 0) : (l.SetOffset k).isSome := by
  unfold Loader.SetOffset
  rw [if_neg (by omega)]
  have ho : k % l.Size <
      ((l.data.drop l.currentSentence).map
        (fun s => s.length - 2 * l.windowSize)).sum := by
    rw [hcs, List.drop_zero, ← Loader.Size_eq]
    exact Nat.mod_lt _ hsz
  obtain ⟨o2, cs2, sent, hloop, hs2, hle⟩ :=
    setOffsetWalk_some l.data l.windowSize (l.data.drop l.currentSentence)
      l.currentSentence (k % l.Size) rfl ho
  rw [hloop]
  dsimp only
  rw [hs2]
  dsimp only
  split <;> rfl

/-- C6 (amended): for every loader state satisfying the corpus invariant,
with a non-empty window set (`Size() > 0`) and with the cursor at the start
of the corpus (`currentSentence_ = 0`, e.g. a freshly constructed loader),
`SetOffset` succeeds for every unsigned offset: the offset is reduced modulo
`Size()` and every container access performed while repositioning stays in
bounds (the embedded `SetOffset`, in which any out-of-bounds access yields
`none`, returns a result). -/
theorem spec_C6_amended (l : Loader) (k : ℕ) (_hwf : l.WF) (hsz : 0 < l.Size)
    (hcs : l.currentSentence = 0) : (l.SetOffset k).isSome :=
  setOffset_some l k hsz hcs

/-- Witness for the amended C6 at a concrete input: the fresh loader holding
the single sentence `[0, 1, 2]` with window size 1, offset 7. -/
theorem spec_C6_amended_witness :
    (Loader.WF ⟨0, 0, 1, [], [[0, 1, 2]]⟩) ∧
    0 < Loader.Size ⟨0, 0, 1, [], [[0, 1, 2]]⟩ ∧
    (Loader.SetOffset ⟨0, 0, 1, [], [[0, 1, 2]]⟩ 7).isSome :=
  ⟨by decide, by decide,
    spec_C6_amended ⟨0, 0, 1, [], [[0, 1, 2]]⟩ 7 (by decide) (by decide) rfl⟩

lemma wordFromIndexGo_of_mem (v : Vocab)
    (hinj : (v.map (fun e => e.2.1)).Nodup) :
    ∀ e ∈ v, wordFromIndexGo v e.2.1 = e.1 := by
  induction v with
  | nil => simp
  | cons a rest ih =>
    intro e he
    obtain ⟨w, i, f⟩ := a
    rw [List.map_cons, List.nodup_cons] at hinj
    rcases List.mem_cons.mp he with rfl | hmem
    · simp [wordFromIndexGo]
    · have hne : i ≠ e.2.1 := by
        intro hcontra
        exact hinj.1 (hcontra ▸ List.mem_map_of_mem (fun e => e.2.1) hmem)
      simp only [wordFromIndexGo, if_neg hne]
      exact ih hinj.2 e hmem

lemma wordFromIndexGo_of_absent (v : Vocab) (i : ℕ)
    (h : ∀ e ∈ v, e.2.1 ≠ i) : wordFromIndexGo v i = "" := by
  induction v with
  | nil => rfl
  | cons a rest ih =>
    obtain ⟨w, j, f⟩ := a
    have hne : j ≠ i := h (w, j, f) (List.mem_cons_self _ _)
    simp only [wordFromIndexGo, if_neg hne]
    exact ih (fun e he => h e (List.mem_cons_of_mem _ he))

/-- C9: whenever the vocabulary's stored indices are pairwise distinct (the
documented vocabulary invariant), `WordFromIndex` applied to the index of
any present word returns that word, and applied to an index to which no
current entry maps it returns the empty-string "not found" sentinel.  The
statement quantifies over every loader state, so it applies to the current
vocabulary generation after a pruning rebuild as well. -/
theorem spec_C9 (l : Loader)
    (hinj : (l.vocab.map (fun e => e.2.1)).Nodup) :
    (∀ e ∈ l.vocab, l.WordFromIndex e.2.1 = e.1) ∧
    (∀ i, (∀ e ∈ l.vocab, e.2.1 ≠ i) → l.WordFromIndex i = "") :=
  ⟨fun e he => wordFromIndexGo_of_mem l.vocab hinj e he,
   fun i h => wordFromIndexGo_of_absent l.vocab i h⟩

/-- Witness for C9 at a concrete input: a loader with the two-entry
vocabulary `ab ↦ (0, 2)`, `cd ↦ (1, 1)`; index 1 maps back to `cd` and
index 7, to which no entry maps, yields the sentinel. -/
theorem spec_C9_witness :
    ((([("ab", 0, 2), ("cd", 1, 1)] : Vocab).map (fun e => e.2.1)).Nodup) ∧
    Loader.WordFromIndex ⟨0, 0, 1, [("ab", 0, 2), ("cd", 1, 1)], []⟩ 1 = "cd" ∧
    Loader.WordFromIndex ⟨0, 0, 1, [("ab", 0, 2), ("cd", 1, 1)], []⟩ 7 = "" :=
  ⟨by decide,
   (spec_C9 ⟨0, 0, 1, [("ab", 0, 2), ("cd", 1, 1)], []⟩ (by decide)).1
     ("cd", 1, 1) (by decide),
   (spec_C9 ⟨0, 0, 1, [("ab", 0, 2), ("cd", 1, 1)], []⟩ (by decide)).2
     7 (by decide)⟩

lemma char_toNat_inj {a b : Char} (h : a.toNat = b.toNat) : a = b :=
  Char.ext (UInt32.ext h)

lemma charListLt_nil_right (a : List Char) : charListLt a [] = false := by
  cases a <;> rfl

lemma charListLt_irrefl (a : List Char) : charListLt a a = false := by
  induction a with
  | nil => rfl
  | cons c cs ih => simp [charListLt, ih]

lemma charListLt_trans : ∀ a b c : List Char, charListLt a b = true →
    charListLt b c = true → charListLt a c = true := by
  intro a
  induction a with
  | nil =>
    intro b c h1 h2
    cases c with
    | nil => rw [charListLt_nil_right] at h2; exact absurd h2 (by simp)
    | cons z zs => rfl
  | cons x xs ih =>
    intro b c h1 h2
    cases b with
    | nil => rw [charListLt_nil_right] at h1; exact absurd h1 (by simp)
    | cons y ys =>
      cases c with
      | nil => rw [charListLt_nil_right] at h2; exact absurd h2 (by simp)
      | cons z zs =>
        simp only [charListLt, Bool.or_eq_true, Bool.and_eq_true,
          decide_eq_true_eq] at h1 h2 ⊢
        rcases h1 with h1 | ⟨he1, h1⟩ <;> rcases h2 with h2 | ⟨he2, h2⟩
        · left; omega
        · left; omega
        · left; omega
        · exact Or.inr ⟨by omega, ih ys zs h1 h2⟩

lemma charListLt_of_not : ∀ a b : List Char, charListLt a b = false →
    a ≠ b → charListLt b a = true := by
  intro a
  induction a with
  | nil =>
    intro b hf hne
    cases b with
    | nil => exact absurd rfl hne
    | cons d ds => exact absurd hf (by simp [charListLt])
  | cons c cs ih =>
    intro b hf hne
    cases b with
    | nil => rfl
    | cons d ds =>
      simp only [charListLt, Bool.or_eq_false_iff, Bool.and_eq_false_iff,
        decide_eq_false_iff_not] at hf
      simp only [charListLt, Bool.or_eq_true, Bool.and_eq_true,
        decide_eq_true_eq]
      rcases hf with ⟨hlt, heq⟩
      by_cases hcd : c.toNat = d.toNat
      · have hchar : c = d := char_toNat_inj hcd
        rcases heq with heq | hrec
        · exact absurd hcd heq
        · refine Or.inr ⟨by omega, ih ds hrec ?_⟩
          intro hcontra
          exact hne (by rw [hchar, hcontra])
      · exact Or.inl (by omega)

lemma strLt_irrefl (s : String) : strLt s s = false :=
  charListLt_irrefl s.data

lemma strLt_trans {s t u : String} (h1 : strLt s t = true)
    (h2 : strLt t u = true) : strLt s u = true :=
  charListLt_trans s.data t.data u.data h1 h2

lemma strLt_of_not {s t : String} (h : strLt s t = false) (hne : s ≠ t) :
    strLt t s = true :=
  charListLt_of_not s.data t.data h
    (fun hd => hne (by cases s; cases t; simp only at hd; rw [hd]))

lemma strLt_ne {s t : String} (h : strLt s t = true) : s ≠ t := by
  intro hcontra
  rw [hcontra, strLt_irrefl] at h
  exact absurd h (by simp)

lemma vocabSorted_iff (v : Vocab) :
    VocabSorted v ↔ (v.map Prod.fst).Pairwise (fun a b => strLt a b = true) := by
  constructor
  · intro h
    exact List.pairwise_map.mpr h
  · intro h
    exact List.pairwise_map.mp h

lemma vocabSorted_cons {a : String × ℕ × ℕ} {rest : Vocab} :
    VocabSorted (a :: rest) ↔
      (∀ e ∈ rest, strLt a.1 e.1 = true) ∧ VocabSorted rest :=
  List.pairwise_cons

lemma vocabFind_eq_some_mem : ∀ (v : Vocab) (s : String) (q : ℕ × ℕ),
    vocabFind v s = some q → (s, q) ∈ v := by
  intro v
  induction v with
  | nil => intro s q h; exact absurd h (by simp [vocabFind])
  | cons a rest ih =>
    intro s q h
    obtain ⟨w, p⟩ := a
    by_cases hsw : s = w
    · rw [vocabFind, if_pos hsw] at h
      exact List.mem_cons.mpr (Or.inl (by rw [hsw, Option.some_inj.mp h]))
    · rw [vocabFind, if_neg hsw] at h
      exact List.mem_cons.mpr (Or.inr (ih s q h))

lemma vocabFind_of_mem_sorted : ∀ (v : Vocab), VocabSorted v →
    ∀ (s : String) (q : ℕ × ℕ), (s, q) ∈ v → vocabFind v s = some q := by
  intro v
  induction v with
  | nil => intro _ s q h; exact absurd h (List.not_mem_nil _)
  | cons a rest ih =>
    intro hsort s q h
    obtain ⟨w, p⟩ := a
    rw [vocabSorted_cons] at hsort
    rcases List.mem_cons.mp h with heq | hmem
    · obtain ⟨h1, h2⟩ := Prod.mk.injEq .. ▸ heq
      rw [vocabFind, if_pos (by rw [h1]), h2]
    · have hlt : strLt w s = true := hsort.1 (s, q) hmem
      rw [vocabFind, if_neg (fun hc => strLt_ne hlt hc.symm), ih hsort.2 s q hmem]

lemma mapInsert_of_present : ∀ (v : Vocab), VocabSorted v →
    ∀ (s : String) (p : ℕ × ℕ), (vocabFind v s).isSome → mapInsert s p v = v := by
  intro v
  induction v with
  | nil => intro _ s p h; exact absurd h (by simp [vocabFind])
  | cons a rest ih =>
    intro hsort s p h
    obtain ⟨w, q⟩ := a
    rw [vocabSorted_cons] at hsort
    by_cases hsw : s = w
    · rw [mapInsert, if_neg (by rw [hsw, strLt_irrefl]; simp), if_pos hsw]
    · rw [vocabFind, if_neg hsw] at h
      obtain ⟨q', hq'⟩ := Option.isSome_iff_exists.mp h
      have hmem := vocabFind_eq_some_mem rest s q' hq'
      have hws : strLt w s = true := hsort.1 (s, q') hmem
      have hnlt : strLt s w = false := by
        cases hsw2 : strLt s w with
        | false => rfl
        | true => exact absurd (strLt_trans hsw2 hws) (by rw [strLt_irrefl]; simp)
      rw [mapInsert, hnlt, if_neg (by simp), if_neg hsw,
        ih hsort.2 s p (by rw [hq']; rfl)]

lemma vocabFind_mapInsert_self : ∀ (v : Vocab) (s : String) (p : ℕ × ℕ),
    vocabFind v s = none → vocabFind (mapInsert s p v) s = some p := by
  intro v
  induction v with
  | nil => intro s p _; simp [mapInsert, vocabFind]
  | cons a rest ih =>
    intro s p h
    obtain ⟨w, q⟩ := a
    by_cases hsw : s = w
    · rw [vocabFind, if_pos hsw] at h
      exact absurd h (by simp)
    · rw [vocabFind, if_neg hsw] at h
      cases hlt : strLt s w with
      | true => rw [mapInsert, hlt, if_pos rfl, vocabFind, if_pos rfl]
      | false =>
        rw [mapInsert, hlt, if_neg (by simp), if_neg hsw, vocabFind,
          if_neg hsw]
        exact ih s p h

lemma vocabFind_mapInsert_other : ∀ (v : Vocab) (s t : String) (p : ℕ × ℕ),
    t ≠ s → vocabFind (mapInsert s p v) t = vocabFind v t := by
  intro v
  induction v with
  | nil => intro s t p hne; simp [mapInsert, vocabFind, hne]
  | cons a rest ih =>
    intro s t p hne
    obtain ⟨w, q⟩ := a
    cases hlt : strLt s w with
    | true =>
      rw [mapInsert, hlt, if_pos rfl, vocabFind, if_neg hne]
    | false =>
      by_cases hsw : s = w
      · rw [mapInsert, hlt, if_neg (by simp), if_pos hsw]
      · rw [mapInsert, hlt, if_neg (by simp), if_neg hsw]
        by_cases htw : t = w
        · rw [vocabFind, if_pos htw, vocabFind, if_pos htw]
        · rw [vocabFind, if_neg htw, vocabFind, if_neg htw]
          exact ih s t p hne

lemma mapInsert_length_absent : ∀ (v : Vocab) (s : String) (p : ℕ × ℕ),
    vocabFind v s = none → (mapInsert s p v).length = v.length + 1 := by
  intro v
  induction v with
  | nil => intro s p _; rfl
  | cons a rest ih =>
    intro s p h
    obtain ⟨w, q⟩ := a
    by_cases hsw : s = w
    · rw [vocabFind, if_pos hsw] at h
      exact absurd h (by simp)
    · rw [vocabFind, if_neg hsw] at h
      cases hlt : strLt s w with
      | true => rw [mapInsert, hlt, if_pos rfl]; rfl
      | false =>
        rw [mapInsert, hlt, if_neg (by simp), if_neg hsw, List.length_cons,
          List.length_cons, ih s p h]

lemma mapInsert_mem : ∀ (v : Vocab) (s : String) (p : ℕ × ℕ) (e : String × ℕ × ℕ),
    e ∈ mapInsert s p v → e = (s, p) ∨ e ∈ v := by
  intro v
  induction v with
  | nil => intro s p e he; simpa [mapInsert] using he
  | cons a rest ih =>
    intro s p e he
    obtain ⟨w, q⟩ := a
    cases hlt : strLt s w with
    | true =>
      rw [mapInsert, hlt, if_pos rfl] at he
      rcases List.mem_cons.mp he with heq | hmem
      · exact Or.inl heq
      · exact Or.inr hmem
    | false =>
      by_cases hsw : s = w
      · rw [mapInsert, hlt, if_neg (by simp), if_pos hsw] at he
        exact Or.inr he
      · rw [mapInsert, hlt, if_neg (by simp), if_neg hsw] at he
        rcases List.mem_cons.mp he with heq | hmem
        · exact Or.inr (List.mem_cons.mpr (Or.inl heq))
        · rcases ih s p e hmem with heq | hmem2
          · exact Or.inl heq
          · exact Or.inr (List.mem_cons.mpr (Or.inr hmem2))

lemma mapInsert_sorted : ∀ (v : Vocab), VocabSorted v →
    ∀ (s : String) (p : ℕ × ℕ), vocabFind v s = none →
    VocabSorted (mapInsert s p v) := by
  intro v
  induction v with
  | nil => intro _ s p _; simp [mapInsert, VocabSorted]
  | cons a rest ih =>
    intro hsort s p h
    obtain ⟨w, q⟩ := a
    rw [vocabSorted_cons] at hsort
    by_cases hsw : s = w
    · rw [vocabFind, if_pos hsw] at h
      exact absurd h (by simp)
    · rw [vocabFind, if_neg hsw] at h
      cases hlt : strLt s w with
      | true =>
        rw [mapInsert, hlt, if_pos rfl, vocabSorted_cons]
        constructor
        · intro e he
          rcases List.mem_cons.mp he with heq | hmem
          · rw [heq]; exact hlt
          · exact strLt_trans hlt (hsort.1 e hmem)
        · rw [vocabSorted_cons]
          exact hsort
      | false =>
        rw [mapInsert, hlt, if_neg (by simp), if_neg hsw, vocabSorted_cons]
        constructor
        · intro e he
          rcases mapInsert_mem rest s p e he with heq | hmem
          · rw [heq]
            exact strLt_of_not hlt (fun hc => hsw hc)
          · exact hsort.1 e hmem
        · exact ih hsort.2 s p h

lemma vocabFind_mapBump : ∀ (v : Vocab) (s t : String),
    vocabFind (mapBump s v) t =
      if t = s then (vocabFind v s).map (fun q => (q.1, q.2 + 1))
      else vocabFind v t := by
  intro v
  induction v with
  | nil => intro s t; simp [mapBump, vocabFind]
  | cons a rest ih =>
    intro s t
    obtain ⟨w, q⟩ := a
    by_cases hsw : s = w
    · subst hsw
      by_cases hts : t = s
      · subst hts
        simp [mapBump, vocabFind]
      · simp [mapBump, vocabFind, hts]
    · by_cases htw : t = w
      · subst htw
        have hts : ¬t = s := fun hc => hsw hc.symm
        simp [mapBump, vocabFind, hsw, hts]
      · by_cases hts : t = s
        · subst hts
          simp [mapBump, vocabFind, hsw, htw, ih]
        · simp [mapBump, vocabFind, hsw, htw, hts, ih]

lemma mapBump_length : ∀ (v : Vocab) (s : String),
    (mapBump s v).length = v.length := by
  intro v
  induction v with
  | nil => intro s; rfl
  | cons a rest ih =>
    intro s
    obtain ⟨w, q⟩ := a
    rw [mapBump]
    split <;> simp [ih]

lemma mapBump_keys : ∀ (v : Vocab) (s : String),
    (mapBump s v).map Prod.fst = v.map Prod.fst := by
  intro v
  induction v with
  | nil => intro s; rfl
  | cons a rest ih =>
    intro s
    obtain ⟨w, q⟩ := a
    rw [mapBump]
    split
    · rfl
    · rw [List.map_cons, List.map_cons, ih]

lemma mapBump_sorted (v : Vocab) (s : String) (h : VocabSorted v) :
    VocabSorted (mapBump s v) := by
  rw [vocabSorted_iff, mapBump_keys]
  exact (vocabSorted_iff v).mp h

lemma mem_firstOccs : ∀ (T : List String) (u : String),
    u ∈ firstOccs T ↔ u ∈ T := by
  intro T
  induction T with
  | nil => simp [firstOccs]
  | cons t ts ih =>
    intro u
    by_cases hut : u = t
    · subst hut
      simp [firstOccs]
    · simp only [firstOccs, List.mem_cons, List.mem_filter]
      constructor
      · intro h
        rcases h with h | ⟨h, _⟩
        · exact Or.inl h
        · exact Or.inr ((ih u).mp h)
      · intro h
        rcases h with h | h
        · exact Or.inl h
        · exact Or.inr ⟨(ih u).mpr h, by simpa using hut⟩

lemma firstOccs_nodup : ∀ (T : List String), (firstOccs T).Nodup := by
  intro T
  induction T with
  | nil => simp [firstOccs]
  | cons t ts ih =>
    rw [firstOccs, List.nodup_cons]
    constructor
    · intro hmem
      have := (List.mem_filter.mp hmem).2
      simp at this
    · exact ih.filter _

lemma firstOccs_append_not_mem : ∀ (T : List String) (t : String), t ∉ T →
    firstOccs (T ++ [t]) = firstOccs T ++ [t] := by
  intro T
  induction T with
  | nil => intro t _; rfl
  | cons u ts ih =>
    intro t h
    have hne : t ≠ u := fun hc => h (hc ▸ List.mem_cons_self u ts)
    rw [List.cons_append, firstOccs, ih t (fun hc => h (List.mem_cons_of_mem u hc)),
      List.filter_append, firstOccs]
    simp [hne]

lemma firstOccs_append_mem (T : List String) (t : String) (h : t ∈ T) :
    firstOccs (T ++ [t]) = firstOccs T := by
  induction T with
  | nil => exact absurd h (List.not_mem_nil t)
  | cons u ts ih =>
    rcases List.mem_cons.mp h with rfl | hmem
    · by_cases hT : t ∈ ts
      · rw [List.cons_append, firstOccs, ih hT, firstOccs]
      · rw [List.cons_append, firstOccs, firstOccs_append_not_mem ts t hT,
          List.filter_append, firstOccs]
        simp
    · rw [List.cons_append, firstOccs, ih hmem, firstOccs]

lemma stiStep_models (v : Vocab) (T : List String) (t : String)
    (h : VocabModels v T) : VocabModels (stiStep v t).1 (T ++ [t]) := by
  obtain ⟨hsort, hlen, hfind⟩ := h
  by_cases hmem : t ∈ T
  · have hfs : vocabFind v t =
        some ((firstOccs T).indexOf t, T.count t) := by
      rw [hfind t, if_pos hmem]
    have hins : mapInsert t (v.length, 0) v = v :=
      mapInsert_of_present v hsort t (v.length, 0) (by rw [hfs]; rfl)
    have hA : firstOccs (T ++ [t]) = firstOccs T :=
      firstOccs_append_mem T t hmem
    unfold stiStep
    simp only [hins]
    refine ⟨mapBump_sorted v t hsort, ?_, ?_⟩
    · rw [mapBump_length, hA]
      exact hlen
    · intro u
      rw [vocabFind_mapBump]
      by_cases hut : u = t
      · subst hut
        rw [if_pos rfl, hfs, if_pos (by simp), hA]
        simp [List.count_append]
      · rw [if_neg hut, hfind u, hA]
        have hmem2 : u ∈ T ++ [t] ↔ u ∈ T := by simp [hut]
        by_cases huT : u ∈ T
        · rw [if_pos huT, if_pos (hmem2.mpr huT)]
          have : (T ++ [t]).count u = T.count u := by
            simp [List.count_append, hut]
          rw [this]
        · rw [if_neg huT, if_neg (fun hc => huT (hmem2.mp hc))]
  · have hfn : vocabFind v t = none := by rw [hfind t, if_neg hmem]
    have hA : firstOccs (T ++ [t]) = firstOccs T ++ [t] :=
      firstOccs_append_not_mem T t hmem
    have htA : t ∉ firstOccs T := fun hc => hmem ((mem_firstOccs T t).mp hc)
    unfold stiStep
    refine ⟨mapBump_sorted _ t (mapInsert_sorted v hsort t (v.length, 0) hfn),
      ?_, ?_⟩
    · rw [mapBump_length, mapInsert_length_absent v t (v.length, 0) hfn, hA,
        List.length_append, hlen]
      rfl
    · intro u
      rw [vocabFind_mapBump]
      by_cases hut : u = t
      · subst hut
        rw [if_pos rfl, vocabFind_mapInsert_self v u (v.length, 0) hfn,
          if_pos (by simp), hA]
        rw [List.indexOf_append_of_not_mem htA, List.indexOf_cons_self]
        have hc0 : T.count u = 0 := List.count_eq_zero.mpr hmem
        simp [List.count_append, hc0, hlen]
      · rw [if_neg hut, vocabFind_mapInsert_other v t u (v.length, 0) hut,
          hfind u, hA]
        have hmem2 : u ∈ T ++ [t] ↔ u ∈ T := by simp [hut]
        by_cases huT : u ∈ T
        · rw [if_pos huT, if_pos (hmem2.mpr huT),
            List.indexOf_append_of_mem ((mem_firstOccs T u).mpr huT)]
          have : (T ++ [t]).count u = T.count u := by
            simp [List.count_append, hut]
          rw [this]
        · rw [if_neg huT, if_neg (fun hc => huT (hmem2.mp hc))]

lemma stiGo_models : ∀ (ts : List String) (v : Vocab) (T : List String),
    VocabModels v T → VocabModels (stiGo v ts).1 (T ++ ts) := by
  intro ts
  induction ts with
  | nil => intro v T h; simpa using h
  | cons t ts ih =>
    intro v T h
    have h1 := stiStep_models v T t h
    have h2 := ih (stiStep v t).1 (T ++ [t]) h1
    rw [List.append_assoc] at h2
    simpa using h2

lemma acceptedTokens_cons (w : ℕ) (s : String) (ss : List String) :
    acceptedTokens w (s :: ss) =
      if 2 * w + 1 ≤ (preprocessString s).length then
        preprocessString s ++ acceptedTokens w ss
      else acceptedTokens w ss := by
  rw [acceptedTokens, List.map_cons, List.filter_cons]
  by_cases h : 2 * w + 1 ≤ (preprocessString s).length
  · rw [if_pos (by simpa using h), if_pos h, List.flatten_cons]
    rfl
  · rw [if_neg (by simpa using h), if_neg h]
    rfl

lemma foldl_addData_models (w : ℕ) (ss : List String) :
    ∀ (l : Loader) (T : List String), l.windowSize = w →
    VocabModels l.vocab T →
    VocabModels ((ss.foldl (fun l s => (l.AddData s).1) l).vocab)
      (T ++ acceptedTokens w ss) := by
  induction ss with
  | nil =>
    intro l T hw h
    simpa [acceptedTokens] using h
  | cons s ss ih =>
    intro l T hw h
    rw [List.foldl_cons, acceptedTokens_cons]
    have hw2 : (l.AddData s).1.windowSize = w := by
      rw [(addData_fields l s).2.2, hw]
    by_cases hlen : 2 * w + 1 ≤ (preprocessString s).length
    · rw [if_pos hlen]
      have hv : (l.AddData s).1.vocab = (stiGo l.vocab (preprocessString s)).1 := by
        unfold Loader.AddData Loader.StringsToIndexes
        rw [hw]
        simp [hlen, stiGo_length]
      have h2 : VocabModels (l.AddData s).1.vocab (T ++ preprocessString s) := by
        rw [hv]
        exact stiGo_models (preprocessString s) l.vocab T h
      have h3 := ih (l.AddData s).1 (T ++ preprocessString s) hw2 h2
      rwa [List.append_assoc] at h3
    · rw [if_neg hlen]
      have hv : (l.AddData s).1.vocab = l.vocab := by
        unfold Loader.AddData Loader.StringsToIndexes
        rw [hw]
        simp [hlen]
      exact ih (l.AddData s).1 T hw2 (hv ▸ h)

lemma loadAll_models (w : ℕ) (ss : List String) :
    VocabModels (loadAll w ss).vocab (acceptedTokens w ss) := by
  have h0 : VocabModels (initLoader w).vocab [] := by
    refine ⟨List.Pairwise.nil, rfl, ?_⟩
    intro t
    simp [vocabFind, initLoader, firstOccs]
  simpa using foldl_addData_models w ss (initLoader w) [] rfl h0

lemma indexOf_map_self : ∀ (A : List String), A.Nodup →
    A.map (fun u => A.indexOf u) = List.range A.length := by
  intro A
  induction A with
  | nil => intro _; rfl
  | cons a A ih =>
    intro hnd
    rw [List.nodup_cons] at hnd
    rw [List.map_cons, List.indexOf_cons_self, List.length_cons,
      List.range_succ_eq_map]
    congr 1
    have hstep : A.map (fun u => (a :: A).indexOf u) =
        A.map (fun u => (A.indexOf u).succ) := by
      apply List.map_congr_left
      intro u hu
      exact List.indexOf_cons_ne A (fun hc => hnd.1 (hc ▸ hu))
    rw [hstep, show (fun u => (List.indexOf u A).succ) =
        (Nat.succ ∘ fun u => List.indexOf u A) from rfl,
      ← List.map_map, ih hnd.2]

lemma models_perm (v : Vocab) (T : List String) (h : VocabModels v T) :
    (v.map (fun e => e.2.1)).Perm (List.range v.length) := by
  obtain ⟨hsort, hlen, hfind⟩ := h
  have hkeysnd : (v.map Prod.fst).Nodup := by
    have hp := (vocabSorted_iff v).mp hsort
    exact hp.imp (fun hlt => strLt_ne hlt)
  have hent : ∀ e ∈ v, e.2.1 = (firstOccs T).indexOf e.1 ∧ e.1 ∈ T := by
    intro e he
    have hf : vocabFind v e.1 = some e.2 :=
      vocabFind_of_mem_sorted v hsort e.1 e.2 he
    rw [hfind e.1] at hf
    by_cases hmem : e.1 ∈ T
    · rw [if_pos hmem] at hf
      exact ⟨congrArg Prod.fst (Option.some_inj.mp hf.symm), hmem⟩
    · rw [if_neg hmem] at hf
      exact absurd hf (by simp)
  have hkeymem : ∀ u, u ∈ v.map Prod.fst ↔ u ∈ firstOccs T := by
    intro u
    constructor
    · intro hu
      obtain ⟨e, he, heq⟩ := List.mem_map.mp hu
      exact (mem_firstOccs T u).mpr (heq ▸ (hent e he).2)
    · intro hu
      have hmem : u ∈ T := (mem_firstOccs T u).mp hu
      have hf : vocabFind v u =
          some ((firstOccs T).indexOf u, T.count u) := by
        rw [hfind u, if_pos hmem]
      exact List.mem_map.mpr
        ⟨(u, (firstOccs T).indexOf u, T.count u),
          vocabFind_eq_some_mem v u _ hf, rfl⟩
  have hpermA : (v.map Prod.fst).Perm (firstOccs T) :=
    (List.perm_ext_iff_of_nodup hkeysnd (firstOccs_nodup T)).mpr hkeymem
  have hmapeq : v.map (fun e => e.2.1) =
      (v.map Prod.fst).map (fun u => (firstOccs T).indexOf u) := by
    rw [List.map_map]
    apply List.map_congr_left
    intro e he
    exact (hent e he).1
  rw [hmapeq, hlen]
  have hfinal := hpermA.map (fun u => (firstOccs T).indexOf u)
  rwa [indexOf_map_self (firstOccs T) (firstOccs_nodup T)] at hfinal

/-- C7: throughout ingestion — for every sequence of `AddData` calls on a
fresh loader — the vocabulary maps exactly the tokens of the successfully
ingested sentences; each word's entry holds the index equal to the number of
distinct words seen strictly before its first occurrence (i.e. the
vocabulary size at the moment it was first seen, so indices follow
first-occurrence order) and a frequency equal to the total number of
occurrences of the word across all accepted sentences, counting repeats
within and across sentences; and the stored indices are exactly a
permutation of `0 .. N-1` for `N` the vocabulary size (unique and densely
packed). -/
theorem spec_C7 (w : ℕ) (ss : List String) :
    (∀ t, vocabFind (loadAll w ss).vocab t =
        if t ∈ acceptedTokens w ss then
          some ((firstOccs (acceptedTokens w ss)).indexOf t,
            (acceptedTokens w ss).count t)
        else none) ∧
    ((loadAll w ss).vocab.map (fun e => e.2.1)).Perm
      (List.range (loadAll w ss).vocab.length) :=
  ⟨(loadAll_models w ss).2.2,
   models_perm (loadAll w ss).vocab (acceptedTokens w ss) (loadAll_models w ss)⟩

lemma splitGroups_spaceless_prepend :
    ∀ (t cs : List Char) (g : List Char) (gs : List (List Char)),
    splitGroups cs = g :: gs → (∀ c ∈ t, c ≠ ' ') →
    splitGroups (t ++ cs) = (t ++ g) :: gs := by
  intro t
  induction t with
  | nil => intro cs g gs h _; simpa using h
  | cons c t ih =>
    intro cs g gs h hsp
    have hc : c ≠ ' ' := hsp c (List.mem_cons_self c t)
    have hrec := ih cs g gs h (fun d hd => hsp d (List.mem_cons_of_mem c hd))
    rw [List.cons_append, splitGroups, if_neg hc, hrec]
    rfl

lemma splitGroups_space (cs : List Char) :
    splitGroups (' ' :: cs) = [] :: splitGroups cs := by
  rw [splitGroups, if_pos rfl]

lemma string_ne_empty_iff (w : String) : w ≠ "" ↔ w.data ≠ [] := by
  cases w
  simp [String.ext_iff]

lemma splitWords_flatten :
    ∀ (ws : List String), (∀ w ∈ ws, ∀ c ∈ w.data, c ≠ ' ') →
    splitWords ((ws.map (fun w => w.data ++ [' '])).flatten) =
      ws.filter (fun w => w ≠ "") := by
  intro ws
  induction ws with
  | nil => intro _; rfl
  | cons w ws ih =>
    intro hsp
    have hgroups : splitGroups
        (((w :: ws).map (fun w => w.data ++ [' '])).flatten) =
        w.data :: splitGroups ((ws.map (fun w => w.data ++ [' '])).flatten) := by
      rw [List.map_cons, List.flatten_cons, List.append_assoc, List.singleton_append]
      have h2 := splitGroups_spaceless_prepend w.data
        (' ' :: (ws.map (fun w => w.data ++ [' '])).flatten)
        [] (splitGroups ((ws.map (fun w => w.data ++ [' '])).flatten))
        (splitGroups_space _) (hsp w (List.mem_cons_self w ws))
      simpa using h2
    have hIH := ih (fun u hu => hsp u (List.mem_cons_of_mem w hu))
    rw [splitWords] at hIH
    rw [splitWords, hgroups, List.filter_cons, List.filter_cons]
    by_cases hw : w.data = []
    · have hwe : w = "" := String.ext (by rw [hw])
      rw [if_neg (by simp [hw]), if_neg (by simp [hwe]), hIH]
    · have hwne : w ≠ "" := (string_ne_empty_iff w).mpr hw
      rw [if_pos (by simpa using hw), if_pos (by simpa using hwne),
        List.map_cons, show String.mk w.data = w from (by cases w; rfl), hIH]

lemma map_normChar_id : ∀ (cs : List Char), (∀ c ∈ cs, normChar c = c) →
    cs.map normChar = cs := by
  intro cs h
  induction cs with
  | nil => rfl
  | cons c cs ih =>
    rw [List.map_cons, h c (List.mem_cons_self c cs),
      ih (fun d hd => h d (List.mem_cons_of_mem c hd))]

lemma rebuild_data_aux (rv : RevVocab) (min : ℕ) :
    ∀ (sent : List ℕ) (s0 : String),
    (sent.foldl
        (fun s word =>
          if min ≤ (revLookup rv word).2 then s ++ (revLookup rv word).1 ++ " "
          else s)
        s0).data =
      s0.data ++
        ((keptWords rv min sent).map (fun w => w.data ++ [' '])).flatten := by
  intro sent
  induction sent with
  | nil => intro s0; simp [keptWords]
  | cons word sent ih =>
    intro s0
    rw [List.foldl_cons]
    by_cases hk : min ≤ (revLookup rv word).2
    · rw [if_pos hk, ih]
      have hkw : keptWords rv min (word :: sent) =
          (revLookup rv word).1 :: keptWords rv min sent := by
        rw [keptWords, List.filterMap_cons, if_pos hk]
        rfl
      rw [hkw, List.map_cons, List.flatten_cons, String.data_append,
        String.data_append]
      simp
    · rw [if_neg hk, ih]
      have hkw : keptWords rv min (word :: sent) = keptWords rv min sent := by
        rw [keptWords, List.filterMap_cons, if_neg hk]
        rfl
      rw [hkw]

lemma rebuildSentenceString_data (rv : RevVocab) (min : ℕ) (sent : List ℕ) :
    (rebuildSentenceString rv min sent).data =
      ((keptWords rv min sent).map (fun w => w.data ++ [' '])).flatten := by
  rw [rebuildSentenceString, rebuild_data_aux]
  rfl

lemma insertRev_self : ∀ (m : RevVocab) (i : ℕ) (p : String × ℕ),
    (i, p) ∈ insertRev i p m := by
  intro m
  induction m with
  | nil => intro i p; simp [insertRev]
  | cons a rest ih =>
    intro i p
    obtain ⟨j, q⟩ := a
    by_cases hij : i < j
    · rw [insertRev, if_pos hij]
      exact List.mem_cons_self _ _
    · by_cases hij2 : i = j
      · rw [insertRev, if_neg hij, if_pos hij2]
        exact List.mem_cons.mpr (Or.inl (by rw [hij2]))
      · rw [insertRev, if_neg hij, if_neg hij2]
        exact List.mem_cons_of_mem _ (ih i p)

lemma insertRev_keys : ∀ (m : RevVocab) (i k : ℕ) (p q : String × ℕ),
    (k, q) ∈ m → ∃ q2, (k, q2) ∈ insertRev i p m := by
  intro m
  induction m with
  | nil => intro i k p q h; exact absurd h (List.not_mem_nil _)
  | cons a rest ih =>
    intro i k p q h
    obtain ⟨j, r⟩ := a
    by_cases hij : i < j
    · rw [insertRev, if_pos hij]
      exact ⟨q, List.mem_cons_of_mem _ h⟩
    · by_cases hij2 : i = j
      · rw [insertRev, if_neg hij, if_pos hij2]
        rcases List.mem_cons.mp h with heq | hmem
        · have hkj : k = j := congrArg Prod.fst heq
          exact ⟨p, List.mem_cons.mpr (Or.inl (by rw [hkj]))⟩
        · exact ⟨q, List.mem_cons_of_mem _ hmem⟩
      · rw [insertRev, if_neg hij, if_neg hij2]
        rcases List.mem_cons.mp h with heq | hmem
        · have hkj : k = j := congrArg Prod.fst heq
          exact ⟨r, List.mem_cons.mpr (Or.inl (by rw [hkj]))⟩
        · obtain ⟨q2, hq2⟩ := ih i k p q hmem
          exact ⟨q2, List.mem_cons_of_mem _ hq2⟩

lemma insertRev_mem : ∀ (m : RevVocab) (i : ℕ) (p : String × ℕ)
    (e : ℕ × String × ℕ), e ∈ insertRev i p m → e = (i, p) ∨ e ∈ m := by
  intro m
  induction m with
  | nil => intro i p e h; simpa [insertRev] using h
  | cons a rest ih =>
    intro i p e h
    obtain ⟨j, r⟩ := a
    by_cases hij : i < j
    · rw [insertRev, if_pos hij] at h
      rcases List.mem_cons.mp h with heq | hmem
      · exact Or.inl heq
      · exact Or.inr hmem
    · by_cases hij2 : i = j
      · rw [insertRev, if_neg hij, if_pos hij2] at h
        rcases List.mem_cons.mp h with heq | hmem
        · exact Or.inl (by rw [heq, hij2])
        · exact Or.inr (List.mem_cons_of_mem _ hmem)
      · rw [insertRev, if_neg hij, if_neg hij2] at h
        rcases List.mem_cons.mp h with heq | hmem
        · exact Or.inr (List.mem_cons.mpr (Or.inl heq))
        · rcases ih i p e hmem with heq | hmem2
          · exact Or.inl heq
          · exact Or.inr (List.mem_cons_of_mem _ hmem2)

lemma buildReverse_go_mem :
    ∀ (v : Vocab) (m : RevVocab) (e : ℕ × String × ℕ),
    e ∈ v.foldl (fun m e0 => insertRev e0.2.1 (e0.1, e0.2.2) m) m →
    e ∈ m ∨ ∃ e0 ∈ v, e = (e0.2.1, e0.1, e0.2.2) := by
  intro v
  induction v with
  | nil => intro m e h; exact Or.inl h
  | cons e1 v ih =>
    intro m e h
    rw [List.foldl_cons] at h
    rcases ih _ e h with hmem | ⟨e0, he0, heq⟩
    · rcases insertRev_mem m e1.2.1 (e1.1, e1.2.2) e hmem with heq | hmem2
      · exact Or.inr ⟨e1, List.mem_cons_self _ _, heq⟩
      · exact Or.inl hmem2
    · exact Or.inr ⟨e0, List.mem_cons_of_mem _ he0, heq⟩

lemma buildReverse_mem (v : Vocab) (e : ℕ × String × ℕ)
    (h : e ∈ buildReverse v) : ∃ e0 ∈ v, e = (e0.2.1, e0.1, e0.2.2) := by
  rcases buildReverse_go_mem v [] e h with hmem | hgood
  · exact absurd hmem (List.not_mem_nil _)
  · exact hgood

lemma buildReverse_go_covers :
    ∀ (v : Vocab) (m : RevVocab) (i : ℕ),
    ((∃ q, (i, q) ∈ m) ∨ ∃ e ∈ v, e.2.1 = i) →
    ∃ q, (i, q) ∈ v.foldl (fun m e0 => insertRev e0.2.1 (e0.1, e0.2.2) m) m := by
  intro v
  induction v with
  | nil =>
    intro m i h
    rcases h with h | ⟨e, he, _⟩
    · exact h
    · exact absurd he (List.not_mem_nil _)
  | cons e1 v ih =>
    intro m i h
    rw [List.foldl_cons]
    apply ih
    rcases h with ⟨q, hq⟩ | ⟨e, he, hei⟩
    · obtain ⟨q2, hq2⟩ := insertRev_keys m e1.2.1 i (e1.1, e1.2.2) q hq
      exact Or.inl ⟨q2, hq2⟩
    · rcases List.mem_cons.mp he with rfl | hmem
      · exact Or.inl ⟨(e.1, e.2.2), hei ▸ insertRev_self m e.2.1 (e.1, e.2.2)⟩
      · exact Or.inr ⟨e, hmem, hei⟩

lemma revLookup_of_key_mem : ∀ (m : RevVocab) (i : ℕ) (q : String × ℕ),
    (i, q) ∈ m → (i, revLookup m i) ∈ m := by
  intro m
  induction m with
  | nil => intro i q h; exact absurd h (List.not_mem_nil _)
  | cons a rest ih =>
    intro i q h
    obtain ⟨j, p⟩ := a
    by_cases hij : i = j
    · rw [revLookup, if_pos hij]
      exact List.mem_cons.mpr (Or.inl (by rw [hij]))
    · rw [revLookup, if_neg hij]
      rcases List.mem_cons.mp h with heq | hmem
      · exact absurd (congrArg Prod.fst heq) hij
      · exact List.mem_cons_of_mem _ (ih i q hmem)

lemma revLookup_buildReverse_covered (v : Vocab) (i : ℕ)
    (h : ∃ e ∈ v, e.2.1 = i) :
    ∃ e0 ∈ v, revLookup (buildReverse v) i = (e0.1, e0.2.2) := by
  obtain ⟨q, hq⟩ := buildReverse_go_covers v [] i
    (Or.inr h)
  have h2 := revLookup_of_key_mem (buildReverse v) i q hq
  obtain ⟨e0, he0, heq⟩ := buildReverse_mem v _ h2
  exact ⟨e0, he0, congrArg Prod.snd heq⟩

lemma keptWords_mem (rv : RevVocab) (min : ℕ) (sent : List ℕ) (w : String)
    (h : w ∈ keptWords rv min sent) :
    ∃ idx ∈ sent, min ≤ (revLookup rv idx).2 ∧ (revLookup rv idx).1 = w := by
  rw [keptWords] at h
  obtain ⟨idx, hidx, heq⟩ := List.mem_filterMap.mp h
  by_cases hk : min ≤ (revLookup rv idx).2
  · rw [if_pos hk] at heq
    exact ⟨idx, hidx, hk, Option.some_inj.mp heq⟩
  · rw [if_neg hk] at heq
    exact absurd heq (by simp)

lemma keptWords_clean (v : Vocab) (min : ℕ) (sent : List ℕ)
    (hclean : ∀ e ∈ v, cleanWord e.1)
    (hcov : ∀ idx ∈ sent, ∃ e ∈ v, e.2.1 = idx) :
    ∀ w ∈ keptWords (buildReverse v) min sent, cleanWord w := by
  intro w hw
  obtain ⟨idx, hidx, _, heq⟩ := keptWords_mem _ min sent w hw
  obtain ⟨e0, he0, hrl⟩ := revLookup_buildReverse_covered v idx (hcov idx hidx)
  have hwe : w = e0.1 := by rw [← heq, hrl]
  rw [hwe]
  exact hclean e0 he0

lemma preprocess_rebuild (v : Vocab) (min : ℕ) (sent : List ℕ)
    (hclean : ∀ e ∈ v, cleanWord e.1)
    (hcov : ∀ idx ∈ sent, ∃ e ∈ v, e.2.1 = idx) :
    preprocessString (rebuildSentenceString (buildReverse v) min sent) =
      keptWords (buildReverse v) min sent := by
  have hkc := keptWords_clean v min sent hclean hcov
  rw [preprocessString, rebuildSentenceString_data]
  have hfix : (((keptWords (buildReverse v) min sent).map
        (fun w => w.data ++ [' '])).flatten).map normChar =
      ((keptWords (buildReverse v) min sent).map
        (fun w => w.data ++ [' '])).flatten := by
    apply map_normChar_id
    intro c hc
    rw [List.mem_flatten] at hc
    obtain ⟨g, hg, hcg⟩ := hc
    obtain ⟨u, hu, hgu⟩ := List.mem_map.mp hg
    rw [← hgu] at hcg
    rcases List.mem_append.mp hcg with hcw | hcsp
    · exact ((hkc u hu).2 c hcw).1
    · rw [List.mem_singleton.mp hcsp]
      decide
  rw [hfix, splitWords_flatten _ (fun u hu c hc => ((hkc u hu).2 c hc).2)]
  apply List.filter_eq_self.mpr
  intro u hu
  simpa using (hkc u hu).1

lemma addData_data (l : Loader) (s : String) :
    (l.AddData s).1.data =
      if 2 * l.windowSize + 1 ≤ (preprocessString s).length then
        l.data ++ [(stiGo l.vocab (preprocessString s)).2]
      else l.data := by
  unfold Loader.AddData Loader.StringsToIndexes
  by_cases h : 2 * l.windowSize + 1 ≤ (preprocessString s).length
  · simp [h, stiGo_length]
  · simp [h]

lemma foldl_addData_lengths (w : ℕ) (ss : List String) : ∀ (l : Loader),
    l.windowSize = w →
    ((ss.foldl (fun l s => (l.AddData s).1) l).data).map List.length =
      l.data.map List.length ++
        (ss.map (fun s => (preprocessString s).length)).filter
          (fun n => 2 * w + 1 ≤ n) := by
  induction ss with
  | nil => intro l hw; simp
  | cons s ss ih =>
    intro l hw
    rw [List.foldl_cons, ih _ (by rw [(addData_fields l s).2.2, hw]),
      addData_data, List.map_cons, List.filter_cons]
    by_cases h : 2 * w + 1 ≤ (preprocessString s).length
    · rw [if_pos (by rw [hw]; exact h), if_pos (by simpa using h),
        List.map_append]
      simp [stiGo_length]
    · rw [if_neg (by rw [hw]; exact h), if_neg (by simpa using h)]

lemma stiStep_keys (v : Vocab) (s t : String)
    (h : t ∈ (stiStep v s).1.map Prod.fst) : t = s ∨ t ∈ v.map Prod.fst := by
  unfold stiStep at h
  simp only at h
  rw [mapBump_keys] at h
  obtain ⟨e, he, heq⟩ := List.mem_map.mp h
  rcases mapInsert_mem v s (v.length, 0) e he with heq2 | hmem
  · exact Or.inl (by rw [← heq, heq2])
  · exact Or.inr (List.mem_map.mpr ⟨e, hmem, heq⟩)

lemma stiGo_keys : ∀ (ts : List String) (v : Vocab) (t : String),
    t ∈ (stiGo v ts).1.map Prod.fst → t ∈ v.map Prod.fst ∨ t ∈ ts := by
  intro ts
  induction ts with
  | nil => intro v t h; exact Or.inl h
  | cons s ts ih =>
    intro v t h
    simp only [stiGo] at h
    rcases ih (stiStep v s).1 t h with hv | hts
    · rcases stiStep_keys v s t hv with rfl | hkeys
      · exact Or.inr (List.mem_cons_self _ _)
      · exact Or.inl hkeys
    · exact Or.inr (List.mem_cons_of_mem _ hts)

lemma foldl_addData_keys (ss : List String) : ∀ (l : Loader) (t : String),
    t ∈ ((ss.foldl (fun l s => (l.AddData s).1) l).vocab).map Prod.fst →
    t ∈ l.vocab.map Prod.fst ∨ ∃ s ∈ ss, t ∈ preprocessString s := by
  induction ss with
  | nil => intro l t h; exact Or.inl h
  | cons s ss ih =>
    intro l t h
    rw [List.foldl_cons] at h
    rcases ih (l.AddData s).1 t h with hv | ⟨s2, hs2, hts2⟩
    · by_cases hlen : 2 * l.windowSize + 1 ≤ (preprocessString s).length
      · have hveq : (l.AddData s).1.vocab =
            (stiGo l.vocab (preprocessString s)).1 := by
          unfold Loader.AddData Loader.StringsToIndexes
          simp [hlen, stiGo_length]
        rw [hveq] at hv
        rcases stiGo_keys _ l.vocab t hv with h1 | h2
        · exact Or.inl h1
        · exact Or.inr ⟨s, List.mem_cons_self _ _, h2⟩
      · have hveq : (l.AddData s).1.vocab = l.vocab := by
          unfold Loader.AddData Loader.StringsToIndexes
          simp [hlen]
        rw [hveq] at hv
        exact Or.inl hv
    · exact Or.inr ⟨s2, List.mem_cons_of_mem _ hs2, hts2⟩

/-- C8: after `RemoveInfrequent(threshold)` — under the vocabulary/corpus
invariants that ingestion establishes: every vocabulary word is a nonempty
normalised token, and every corpus index has a vocabulary entry — every word
of the rebuilt vocabulary is an old vocabulary word whose pre-pruning
frequency reached the threshold (no entry with original frequency below the
threshold survives), and the rebuilt corpus consists of exactly one sentence
(of the kept words, in order) per original sentence that retains at least
`2*window_size + 1` words after dropping the filtered-out words — a sentence
that retains fewer is entirely absent.  The replacement is atomic by
construction in this embedding: `RemoveInfrequent` is a pure function from
the old state to the new one, so a caller observes only the full old state
or the full new state. -/
theorem spec_C8 (l : Loader) (min : ℕ)
    (hclean : ∀ e ∈ l.vocab, cleanWord e.1)
    (hcover : ∀ sent ∈ l.data, ∀ idx ∈ sent, ∃ e ∈ l.vocab, e.2.1 = idx) :
    (∀ e ∈ (l.RemoveInfrequent min).vocab,
        ∃ e0 ∈ l.vocab, e0.1 = e.1 ∧ min ≤ e0.2.2) ∧
    (l.RemoveInfrequent min).data.map List.length =
      (l.data.map (fun sent =>
          (keptWords (buildReverse l.vocab) min sent).length)).filter
        (fun n => 2 * l.windowSize + 1 ≤ n) := by
  have hfold : l.data.foldl (fun nl sentence =>
        (nl.AddData
          (rebuildSentenceString (buildReverse l.vocab) min sentence)).1)
      (initLoader l.windowSize) =
      (l.data.map (rebuildSentenceString (buildReverse l.vocab) min)).foldl
        (fun nl s => (nl.AddData s).1) (initLoader l.windowSize) := by
    rw [List.foldl_map]
  have hv : (l.RemoveInfrequent min).vocab =
      ((l.data.map (rebuildSentenceString (buildReverse l.vocab) min)).foldl
        (fun nl s => (nl.AddData s).1) (initLoader l.windowSize)).vocab := by
    simp only [Loader.RemoveInfrequent]
    rw [hfold]
  have hd : (l.RemoveInfrequent min).data =
      ((l.data.map (rebuildSentenceString (buildReverse l.vocab) min)).foldl
        (fun nl s => (nl.AddData s).1) (initLoader l.windowSize)).data := by
    simp only [Loader.RemoveInfrequent]
    rw [hfold]
  constructor
  · intro e he
    have hkey : e.1 ∈ ((l.RemoveInfrequent min).vocab).map Prod.fst :=
      List.mem_map_of_mem Prod.fst he
    rw [hv] at hkey
    rcases foldl_addData_keys _ (initLoader l.windowSize) e.1 hkey with
      h0 | ⟨s2, hs2, hts2⟩
    · exact absurd h0 (List.not_mem_nil _)
    · obtain ⟨sent0, hsent0, hseq⟩ := List.mem_map.mp hs2
      rw [← hseq, preprocess_rebuild l.vocab min sent0 hclean
        (hcover sent0 hsent0)] at hts2
      obtain ⟨idx, hidx, hfreq, hword⟩ :=
        keptWords_mem (buildReverse l.vocab) min sent0 e.1 hts2
      obtain ⟨e0, he0, hrl⟩ := revLookup_buildReverse_covered l.vocab idx
        (hcover sent0 hsent0 idx hidx)
      refine ⟨e0, he0, ?_, ?_⟩
      · rw [← hword, hrl]
      · rw [hrl] at hfreq
        exact hfreq
  · rw [hd, foldl_addData_lengths l.windowSize _ (initLoader l.windowSize) rfl]
    have hmaps : (l.data.map
          (rebuildSentenceString (buildReverse l.vocab) min)).map
        (fun s => (preprocessString s).length) =
        l.data.map (fun sent =>
          (keptWords (buildReverse l.vocab) min sent).length) := by
      rw [List.map_map]
      apply List.map_congr_left
      intro sent hsent
      simp only [Function.comp]
      rw [preprocess_rebuild l.vocab min sent hclean (hcover sent hsent)]
    rw [hmaps]
    rfl

/-- Witness for C8 at a concrete input: the loader with window size 1,
vocabulary `aa ↦ (0, 3)`, `bb ↦ (1, 1)` and the single sentence
`[0, 1, 0, 0]`, pruned at threshold 2 (dropping `bb`). -/
theorem spec_C8_witness :
    (∀ e ∈ ([("aa", 0, 3), ("bb", 1, 1)] : Vocab), cleanWord e.1) ∧
    (∀ sent ∈ [[0, 1, 0, 0]], ∀ idx ∈ sent,
      ∃ e ∈ ([("aa", 0, 3), ("bb", 1, 1)] : Vocab), e.2.1 = idx) ∧
    ((∀ e ∈ (Loader.RemoveInfrequent
          ⟨0, 0, 1, [("aa", 0, 3), ("bb", 1, 1)], [[0, 1, 0, 0]]⟩ 2).vocab,
        ∃ e0 ∈ ([("aa", 0, 3), ("bb", 1, 1)] : Vocab),
          e0.1 = e.1 ∧ 2 ≤ e0.2.2) ∧
      (Loader.RemoveInfrequent
          ⟨0, 0, 1, [("aa", 0, 3), ("bb", 1, 1)], [[0, 1, 0, 0]]⟩ 2).data.map
          List.length =
        (([[0, 1, 0, 0]] : List (List ℕ)).map (fun sent =>
            (keptWords (buildReverse [("aa", 0, 3), ("bb", 1, 1)]) 2
              sent).length)).filter (fun n => 2 * 1 + 1 ≤ n)) :=
  ⟨by decide, by decide,
    spec_C8 ⟨0, 0, 1, [("aa", 0, 3), ("bb", 1, 1)], [[0, 1, 0, 0]]⟩ 2
      (by decide) (by decide)⟩

end W2V
